import Mathlib

/-!
Verification of the binary-grid puzzle core (src/app.ts): the grid model, the
three rule checkers, the validator, move application, the naive completion
heuristic, the negation-based move finder and the iterative solver are embedded
as executable Lean definitions, and the behavioural claims about them are
settled as theorems below the definitions.
-/

namespace App

/-- The closed color enumeration (src/app.ts lines 1 to 4): two active colors,
Red and Blue, and the empty marker Grey. -/
inductive Color where
  | Red
  | Blue
  | Grey
deriving DecidableEq, Repr

open Color

/-- A row is an ordered sequence of colors (src/app.ts line 7). -/
abbrev Row := List Color

/-- A column is an ordered sequence of colors (src/app.ts line 8). -/
abbrev Column := List Color

/-- A board is an ordered sequence of rows (src/app.ts line 9). -/
abbrev Board := List Row

/-- rows of a board: the identity view (src/app.ts line 11). -/
def rows (board : Board) : List Row := board

/-- columns of a board (src/app.ts lines 12 to 15): board.length columns, the
c-th being the c-th entry of every row in row order. The read row[column] is in
bounds exactly on square boards; the out-of-bounds JS read (undefined) is
modelled as Grey, and every theorem that depends on column extraction assumes a
square board so that this default is never consulted. -/
def columns (board : Board) : List Column :=
  (List.range board.length).map (fun c => board.map (fun row => row.getD c Grey))

/-- A board is square when every row has length equal to the number of rows;
this is the grid invariant under which column extraction is the transpose. -/
def Square (board : Board) : Prop := ∀ row ∈ board, row.length = board.length

/-- The violation tagged union (src/app.ts lines 22 to 68), flattened: each of
the three TS violation types has a row-keyed and a column-keyed payload shape,
giving six constructors. -/
inductive Violation where
  | thriceRow (row : Nat) (columns : Nat × Nat × Nat) (color : Color)
  | thriceColumn (column : Nat) (rows : Nat × Nat × Nat) (color : Color)
  | overSatRow (row : Nat) (positionVector : List Nat) (color : Color)
  | overSatColumn (column : Nat) (positionVector : List Nat) (color : Color)
  | lineRepRows (rows : Nat × Nat)
  | lineRepColumns (columns : Nat × Nat)
deriving DecidableEq, Repr

/-- The loop body of findThriceRepetitionRow (src/app.ts lines 76 to 86) at one
enumerated entry: skip the first two indices, and at each later index compare
the cell with the two preceding cells (always in bounds there, modelled with
getD); an all-equal non-Grey triple is returned with its three positions. -/
def thriceBody (row : Row) (p : Nat × Color) : Option ((Nat × Nat × Nat) × Color) :=
  if p.1 < 2 then none
  else
    let c3 := p.2
    let c2 := row.getD (p.1 - 1) Grey
    let c1 := row.getD (p.1 - 2) Grey
    if c1 ≠ Grey ∧ c1 = c2 ∧ c1 = c3 then
      some ((p.1 - 2, p.1 - 1, p.1), c1)
    else none

/-- findThriceRepetitionRow (src/app.ts lines 70 to 89): scan the enumerated
entries left to right and return the first hit of the loop body. -/
def findThriceRepetitionRow (row : Row) : Option ((Nat × Nat × Nat) × Color) :=
  row.enum.findSome? (thriceBody row)

/-- The shared shape of the two line loops of each board checker (for example
src/app.ts lines 93 to 105 and 107 to 119): visit the lines in index order and
return the first line hit together with its line index. -/
def scanLines {α : Type} (check : Row → Option α) (lines : List Row) :
    Option (Nat × α) :=
  lines.enum.findSome? (fun p => (check p.2).map (fun v => (p.1, v)))

/-- findThriceRepetition (src/app.ts lines 90 to 122): every row is scanned
before any column; the first line hit is wrapped with its line index and kind. -/
def findThriceRepetition (board : Board) : Option Violation :=
  match scanLines findThriceRepetitionRow (rows board) with
  | some (index, v) => some (.thriceRow index v.1 v.2)
  | none =>
    match scanLines findThriceRepetitionRow (columns board) with
    | some (index, v) => some (.thriceColumn index v.1 v.2)
    | none => none

/-- positionVectors (src/app.ts lines 124 to 136) read off at one color: the
ordered list of indices at which the color occurs in the row (the TS reduce
pushes each index onto the list of its cell color). -/
def positionVectors (row : Row) (c : Color) : List Nat :=
  (row.enum.filter (fun p => p.2 == c)).map Prod.fst

/-- findOverSaturationRow (src/app.ts lines 138 to 161): Red is tested first;
a color whose doubled position count strictly exceeds the row length is
reported with its full position vector. -/
def findOverSaturationRow (row : Row) : Option (List Nat × Color) :=
  if 2 * (positionVectors row Red).length > row.length then
    some (positionVectors row Red, Red)
  else if 2 * (positionVectors row Blue).length > row.length then
    some (positionVectors row Blue, Blue)
  else none

/-- findOverSaturation (src/app.ts lines 163 to 193): rows before columns, in
index order. -/
def findOverSaturation (board : Board) : Option Violation :=
  match scanLines findOverSaturationRow (rows board) with
  | some (index, v) => some (.overSatRow index v.1 v.2)
  | none =>
    match scanLines findOverSaturationRow (columns board) with
    | some (index, v) => some (.overSatColumn index v.1 v.2)
    | none => none

/-- The key space of the findRepeatedRows map: the TS string key, built as the
color name, a separator, and the positions joined by colons, is injective in
the pair of the color and the position list, so the map key is modelled as
that pair. -/
abbrev RepKey := Color × List Nat

/-- The JS Map of findRepeatedRows as an association list; set prepends, so
lookup finds the most recent binding first, matching overwrite semantics. -/
abbrev RepKeyMap := List (RepKey × Nat)

/-- Map.get on the association list model. -/
def repKeyGet (m : RepKeyMap) (k : RepKey) : Option Nat :=
  (m.find? (fun e => e.1 == k)).map Prod.snd

/-- Map.set on the association list model. -/
def repKeySet (m : RepKeyMap) (k : RepKey) (i : Nat) : RepKeyMap := (k, i) :: m

/-- One color check of the findRepeatedRows loop body (src/app.ts lines
232 to 252): when the color occupies at least half the row, look its key up;
the guard on the looked-up index is the JS truthiness test
if (matchingRowIndex), so a stored index 0 does not fire and falls through to
the set, exactly as undefined does. The left summand is the early return, the
right summand the updated map. -/
def repeatedRowsStep (m : RepKeyMap) (index : Nat) (row : Row) (c : Color) :
    (Nat × Nat) ⊕ RepKeyMap :=
  let vec := positionVectors row c
  if 2 * vec.length ≥ row.length then
    match repKeyGet m (c, vec) with
    | some i =>
      if i ≠ 0 then Sum.inl (i, index)
      else Sum.inr (repKeySet m (c, vec) index)
    | none => Sum.inr (repKeySet m (c, vec) index)
  else Sum.inr m

/-- The findRepeatedRows loop (src/app.ts lines 230 to 253): per line, the Red
check runs before the Blue check on the map the Red check may have updated. -/
def findRepeatedRowsGo (m : RepKeyMap) (index : Nat) : List Row → Option (Nat × Nat)
  | [] => none
  | row :: rest =>
    match repeatedRowsStep m index row Red with
    | Sum.inl hit => some hit
    | Sum.inr m1 =>
      match repeatedRowsStep m1 index row Blue with
      | Sum.inl hit => some hit
      | Sum.inr m2 => findRepeatedRowsGo m2 (index + 1) rest

/-- findRepeatedRows (src/app.ts lines 225 to 256). -/
def findRepeatedRows (rs : List Row) : Option (Nat × Nat) :=
  findRepeatedRowsGo [] 0 rs

/-- findLineRepetition (src/app.ts lines 258 to 278): rows fully scanned before
columns. -/
def findLineRepetition (board : Board) : Option Violation :=
  match findRepeatedRows (rows board) with
  | some hit => some (.lineRepRows hit)
  | none =>
    match findRepeatedRows (columns board) with
    | some hit => some (.lineRepColumns hit)
    | none => none

/-- validateBoard (src/app.ts lines 280 to 283): the nullish-coalescing chain
of the three checkers, Thrice first, then OverSaturation, then LineRepetition. -/
def validateBoard (board : Board) : Option Violation :=
  match findThriceRepetition board with
  | some v => some v
  | none =>
    match findOverSaturation board with
    | some v => some v
    | none => findLineRepetition board

/-- A move (src/app.ts lines 286 to 290): a color and a target cell. -/
structure Move where
  color : Color
  row : Nat
  column : Nat
deriving DecidableEq, Repr

/-- cloneBoard (src/app.ts line 292): a fresh copy of every row; as a value it
equals its input. -/
def cloneBoard (board : Board) : Board := board.map (fun row => row)

/-- Reading one cell of a board through optional lookups: none exactly when
either coordinate is out of bounds. -/
def getCell (board : Board) (r c : Nat) : Option Color :=
  (board.getD r [])[c]?

/-- playMove (src/app.ts lines 294 to 305) at in-bounds coordinates: clone the
board, write the color into the target cell, and validate the new board.
List.set is the JS element write for in-bounds indices; the out-of-bounds
runtime behaviour of the write is modelled separately by playMoveThrows. -/
def playMove (board : Board) (m : Move) : Board × Option Violation :=
  let cloned := cloneBoard board
  let newBoard := cloned.set m.row ((cloned.getD m.row []).set m.column m.color)
  (newBoard, validateBoard newBoard)

/-- Whether the JS assignment newBoard[row][column] = color on src/app.ts line
299 throws at runtime: reading newBoard[row] at an out-of-bounds row index
yields undefined and the element write on undefined throws a TypeError, while
an out-of-bounds column index on an existing row is an ordinary JS array write
that silently extends the row, raising no error at all. -/
def playMoveThrows (board : Board) (m : Move) : Bool :=
  board.length ≤ m.row

/-- countColors (src/app.ts lines 335 to 347) read off at one color: the TS
reduce increments the tally of each cell color, so the tally of a color is its
occurrence count. -/
def countColors (row : Row) (c : Color) : Nat := row.count c

/-- naiveAutocompleteRow (src/app.ts lines 349 to 361): when Red already holds
at least half the row, every Grey becomes Blue; otherwise when Blue holds at
least half, every Grey becomes Red; otherwise the row is returned as a copy. -/
def naiveAutocompleteRow (row : Row) : Row :=
  if 2 * countColors row Red ≥ row.length then
    row.map (fun c => if c = Grey then Blue else c)
  else if 2 * countColors row Blue ≥ row.length then
    row.map (fun c => if c = Grey then Red else c)
  else row

/-- One column write-back step of naiveAutocompleteBoard (src/app.ts lines 372
to 377): set the columnIndex entry of every row to the completed column value
for that row. Columns produced by the columns function always have length
equal to the number of rows, so the getD default is never consulted. -/
def writeColumn (board : Board) (columnIndex : Nat) (newColumn : Column) : Board :=
  board.mapIdx (fun rowIndex row => row.set columnIndex (newColumn.getD rowIndex Grey))

/-- naiveAutocompleteBoard (src/app.ts lines 363 to 381): complete every row in
index order, then walk the columns of that intermediate board (the column list
is computed once, before any column write) and write each completed column back
cell by cell in column index order. -/
def naiveAutocompleteBoard (board : Board) : Board :=
  (columns (board.map naiveAutocompleteRow)).enum.foldl
    (fun b p => writeColumn b p.1 (naiveAutocompleteRow p.2))
    (board.map naiveAutocompleteRow)

/-- A forced move (src/app.ts lines 383 to 388): the move to play together
with the violation that rules out the opposite color. -/
structure ForcedMove where
  move : Move
  violation : Violation
deriving DecidableEq, Repr

/-- The probe of findMoveByNegation for one candidate color at one cell
(src/app.ts lines 407 to 411 and 420 to 424): play the candidate move, naively
complete the result, and validate. -/
def probeViolation (board : Board) (c : Color) (r col : Nat) : Option Violation :=
  validateBoard (naiveAutocompleteBoard (playMove board ⟨c, r, col⟩).1)

/-- The body of the findMoveByNegation scan at one cell (src/app.ts lines 390
to 431): skip a non-Grey cell; probe Red first, and a Red violation forces the
Blue move; only when Red is clean probe Blue, and a Blue violation forces the
Red move. -/
def cellDecision (board : Board) (p : Nat × Nat × Color) : Option ForcedMove :=
  if p.2.2 ≠ Grey then none
  else
    match probeViolation board Red p.1 p.2.1 with
    | some v => some ⟨⟨Blue, p.1, p.2.1⟩, v⟩
    | none =>
      match probeViolation board Blue p.1 p.2.1 with
      | some v => some ⟨⟨Red, p.1, p.2.1⟩, v⟩
      | none => none

/-- findMoveByNegation (src/app.ts lines 383 to 436): scan rows in index order
and cells within a row in index order, returning the first cell decision. -/
def findMoveByNegation (board : Board) : Option ForcedMove :=
  (rows board).enum.findSome? (fun rp =>
    rp.2.enum.findSome? (fun cp => cellDecision board (rp.1, cp.1, cp.2)))

/-- The cells of a board in row-major order, each with its content: the scan
order of findMoveByNegation. -/
def cellsRowMajor (board : Board) : List (Nat × Nat × Color) :=
  (rows board).enum.flatMap (fun rp => rp.2.enum.map (fun cp => (rp.1, cp.1, cp.2)))

/-- The result record of trySolveByNegation (src/app.ts lines 438 to 444). -/
structure SolveResult where
  board : Board
  moves : List ForcedMove
  unexpectedViolation : Option Violation
deriving DecidableEq, Repr

/-- The loop of trySolveByNegation (src/app.ts lines 448 to 465): fuel is the
number of iterations still allowed by the bound moveCount < board.length ^ 2;
each iteration records the found move, plays it, returns at once on a
violation, and otherwise continues on the new board with a freshly found move. -/
def trySolveGo : Nat → Board → List ForcedMove → Option ForcedMove → SolveResult
  | 0, currentBoard, moves, _ => ⟨currentBoard, moves, none⟩
  | _ + 1, currentBoard, moves, none => ⟨currentBoard, moves, none⟩
  | fuel + 1, currentBoard, moves, some nextMove =>
    let r := playMove currentBoard nextMove.move
    match r.2 with
    | some v => ⟨r.1, moves ++ [nextMove], some v⟩
    | none => trySolveGo fuel r.1 (moves ++ [nextMove]) (findMoveByNegation r.1)

/-- trySolveByNegation (src/app.ts lines 438 to 472): start from a clone, find
the first move, and run the loop with the iteration bound board.length ^ 2
taken on the input board. -/
def trySolveByNegation (board : Board) : SolveResult :=
  trySolveGo (board.length ^ 2) (cloneBoard board) []
    (findMoveByNegation (cloneBoard board))

/-! General helper lemmas about scanning an enumerated list, used to
characterise the left-to-right loops of the checkers and the move finder. -/

/-- A findSome? over an enumerated suffix yields some b exactly when some index
fires with b while every earlier index yields none. -/
theorem findSome?_enumFrom_eq_some_iff {α β : Type} (f : Nat × α → Option β)
    (n : Nat) (l : List α) (b : β) :
    (l.enumFrom n).findSome? f = some b ↔
      ∃ k a, l[k]? = some a ∧ f (n + k, a) = some b ∧
        ∀ j aj, j < k → l[j]? = some aj → f (n + j, aj) = none := by
  induction l generalizing n with
  | nil => simp
  | cons a l ih =>
    rw [List.enumFrom_cons, List.findSome?_cons]
    cases hfa : f (n, a) with
    | some b1 =>
      simp only [Option.some.injEq]
      constructor
      · rintro rfl
        exact ⟨0, a, by simp, by simpa using hfa, by omega⟩
      · rintro ⟨k, ak, hk, hf, hmin⟩
        cases k with
        | zero =>
          rw [List.getElem?_cons_zero] at hk
          cases hk
          rw [Nat.add_zero] at hf
          exact (Option.some.inj (hfa.symm.trans hf))
        | succ k1 =>
          have := hmin 0 a (Nat.succ_pos k1) (by simp)
          rw [Nat.add_zero] at this
          exact absurd (hfa.symm.trans this) (by simp)
    | none =>
      rw [ih (n + 1)]
      constructor
      · rintro ⟨k, ak, hk, hf, hmin⟩
        refine ⟨k + 1, ak, by simpa using hk,
          by rw [show n + (k + 1) = n + 1 + k by omega]; exact hf, ?_⟩
        intro j aj hj haj
        cases j with
        | zero =>
          rw [List.getElem?_cons_zero] at haj
          cases haj
          rw [Nat.add_zero]
          exact hfa
        | succ j1 =>
          rw [show n + (j1 + 1) = n + 1 + j1 by omega]
          exact hmin j1 aj (by omega) (by simpa using haj)
      · rintro ⟨k, ak, hk, hf, hmin⟩
        cases k with
        | zero =>
          rw [List.getElem?_cons_zero] at hk
          cases hk
          rw [Nat.add_zero] at hf
          exact absurd (hfa.symm.trans hf) (by simp)
        | succ k1 =>
          refine ⟨k1, ak, by simpa using hk,
            by rw [show n + 1 + k1 = n + (k1 + 1) by omega]; exact hf, ?_⟩
          intro j aj hj haj
          rw [show n + 1 + j = n + (j + 1) by omega]
          exact hmin (j + 1) aj (by omega) (by simpa using haj)

/-- A findSome? over an enumerated suffix yields none exactly when every index
yields none. -/
theorem findSome?_enumFrom_eq_none_iff {α β : Type} (f : Nat × α → Option β)
    (n : Nat) (l : List α) :
    (l.enumFrom n).findSome? f = none ↔
      ∀ j aj, l[j]? = some aj → f (n + j, aj) = none := by
  induction l generalizing n with
  | nil => simp
  | cons a l ih =>
    rw [List.enumFrom_cons, List.findSome?_cons]
    cases hfa : f (n, a) with
    | some b1 =>
      simp only [reduceCtorEq, false_iff]
      intro h
      have := h 0 a (by simp)
      rw [Nat.add_zero] at this
      exact absurd (hfa.symm.trans this) (by simp)
    | none =>
      rw [ih (n + 1)]
      constructor
      · intro h j aj haj
        cases j with
        | zero =>
          rw [List.getElem?_cons_zero] at haj
          cases haj
          rw [Nat.add_zero]
          exact hfa
        | succ j1 =>
          rw [show n + (j1 + 1) = n + 1 + j1 by omega]
          exact h j1 aj (by simpa using haj)
      · intro h j aj haj
        rw [show n + 1 + j = n + (j + 1) by omega]
        exact h (j + 1) aj (by simpa using haj)

/-- The enum specialisation of findSome?_enumFrom_eq_some_iff. -/
theorem findSome?_enum_eq_some_iff {α β : Type} (f : Nat × α → Option β)
    (l : List α) (b : β) :
    l.enum.findSome? f = some b ↔
      ∃ k a, l[k]? = some a ∧ f (k, a) = some b ∧
        ∀ j aj, j < k → l[j]? = some aj → f (j, aj) = none := by
  rw [List.enum, findSome?_enumFrom_eq_some_iff]
  simp

/-- The enum specialisation of findSome?_enumFrom_eq_none_iff. -/
theorem findSome?_enum_eq_none_iff {α β : Type} (f : Nat × α → Option β)
    (l : List α) :
    l.enum.findSome? f = none ↔ ∀ j aj, l[j]? = some aj → f (j, aj) = none := by
  rw [List.enum, findSome?_enumFrom_eq_none_iff]
  simp

/-! Counting lemmas tying position vectors to color counts. -/

/-- The position vector of a color has the color count as its length. -/
theorem positionVectors_length (row : Row) (c : Color) :
    (positionVectors row c).length = countColors row c := by
  have aux : ∀ (l : Row) (n : Nat),
      ((l.enumFrom n).filter (fun p => p.2 == c)).length = l.countP (· == c) := by
    intro l
    induction l with
    | nil => intro n; rfl
    | cons a l ih =>
      intro n
      rw [List.enumFrom_cons, List.filter_cons, List.countP_cons]
      cases h : (a == c) with
      | true => simp [h, ih]
      | false => simp [h, ih]
  rw [positionVectors, List.length_map, countColors, List.count, List.enum, aux]

/-- Each cell holds exactly one of the three colors, so the three counts sum to
the row length. -/
theorem countColors_sum (row : Row) :
    countColors row Red + countColors row Blue + countColors row Grey
      = row.length := by
  induction row with
  | nil => rfl
  | cons a l ih =>
    simp only [countColors, List.count_cons, List.length_cons] at *
    cases a <;> simp <;> omega

/-! C1: the Line-Repetition checker and the truthiness slip at line index 0. -/

/-- C1: two identical rows rbrb at indices 0 and 1 both qualify for Red (and for
Blue) with identical position lists covering at least half the line, yet the
checker reports nothing: the stored earliest index is 0, which the guard
if (matchingRowIndex) treats as absent because 0 is falsy in JS, so the pair
(0, 1) is never returned. -/
theorem findRepeatedRows_misses_line_zero :
    findRepeatedRows [[Red, Blue, Red, Blue], [Red, Blue, Red, Blue]] = none ∧
    findLineRepetition [[Red, Blue, Red, Blue], [Red, Blue, Red, Blue]] = none ∧
    2 * (positionVectors [Red, Blue, Red, Blue] Red).length ≥
      ([Red, Blue, Red, Blue] : Row).length ∧
    positionVectors [Red, Blue, Red, Blue] Red
      = positionVectors [Red, Blue, Red, Blue] Red := by
  refine ⟨by decide, by decide, by decide, rfl⟩

/-! C2: the validator composes the three checkers with fixed precedence. -/

/-- C2: validateBoard returns none exactly when all three checkers return none
on the same board, and otherwise returns the Thrice-Repetition result when that
checker fires, else the Over-Saturation result when that one fires, else the
Line-Repetition result. -/
theorem validateBoard_spec (board : Board) :
    (validateBoard board = none ↔
      findThriceRepetition board = none ∧ findOverSaturation board = none ∧
        findLineRepetition board = none) ∧
    (∀ v, findThriceRepetition board = some v → validateBoard board = some v) ∧
    (∀ v, findThriceRepetition board = none → findOverSaturation board = some v →
      validateBoard board = some v) ∧
    (findThriceRepetition board = none → findOverSaturation board = none →
      validateBoard board = findLineRepetition board) := by
  cases h1 : findThriceRepetition board <;>
    cases h2 : findOverSaturation board <;>
      simp [validateBoard, h1, h2]

/-! C4: the Over-Saturation line checker. -/

/-- C4: findOverSaturationRow reports a color exactly when that color occupies
a strict majority of the line, the reported evidence is the full ordered
position list of that color, and a line with equal Red and Blue counts and no
Grey cell is never reported. -/
theorem findOverSaturationRow_spec (row : Row) :
    (∀ v, findOverSaturationRow row = some v →
      (v.2 = Red ∨ v.2 = Blue) ∧ v.1 = positionVectors row v.2 ∧
        2 * countColors row v.2 > row.length) ∧
    (∀ c, c = Red ∨ c = Blue → 2 * countColors row c > row.length →
      findOverSaturationRow row = some (positionVectors row c, c)) ∧
    (findOverSaturationRow row = none ↔
      ¬ 2 * countColors row Red > row.length ∧
      ¬ 2 * countColors row Blue > row.length) ∧
    (countColors row Red = countColors row Blue → Grey ∉ row →
      findOverSaturationRow row = none) := by
  have hsum := countColors_sum row
  have hR := positionVectors_length row Red
  have hB := positionVectors_length row Blue
  refine ⟨?_, ?_, ?_, ?_⟩
  · intro v hv
    rw [findOverSaturationRow] at hv
    split at hv
    · cases hv
      refine ⟨Or.inl rfl, rfl, ?_⟩
      show 2 * countColors row Red > row.length
      omega
    · split at hv
      · cases hv
        refine ⟨Or.inr rfl, rfl, ?_⟩
        show 2 * countColors row Blue > row.length
        omega
      · cases hv
  · rintro c (rfl | rfl) hc
    · rw [findOverSaturationRow, if_pos (by omega)]
    · rw [findOverSaturationRow, if_neg (by omega), if_pos (by omega)]
  · rw [findOverSaturationRow]
    constructor
    · intro h
      split at h
      · cases h
      · split at h
        · cases h
        · constructor <;> omega
    · intro h
      rw [if_neg (by omega), if_neg (by omega)]
  · intro heq hgrey
    have hg : countColors row Grey = 0 := by
      rw [countColors, List.count_eq_zero]
      exact hgrey
    rw [findOverSaturationRow, if_neg (by omega), if_neg (by omega)]

/-! C5: the Triple-Repetition checker. -/

/-- Three consecutive cells from index i on all hold the same active color. -/
def tripleAt (ln : Row) (i : Nat) (c : Color) : Prop :=
  c ≠ Grey ∧ ln[i]? = some c ∧ ln[i + 1]? = some c ∧ ln[i + 2]? = some c

/-- An in-bounds optional read agrees with the defaulted read. -/
theorem getElem?_eq_some_getD (l : Row) (i : Nat) (h : i < l.length) :
    l[i]? = some (l.getD i Grey) := by
  rw [List.getD_eq_getElem?_getD, List.getElem?_eq_getElem h]
  rfl

/-- The thrice loop body fires at the index closing a triple. -/
theorem thriceBody_fires (row : Row) (i : Nat) (c : Color) (h : tripleAt row i c) :
    thriceBody row (i + 2, c) = some ((i, i + 1, i + 2), c) := by
  obtain ⟨hc, h0, h1, h2⟩ := h
  have e2 : i + 2 - 2 = i := by omega
  have e1 : i + 2 - 1 = i + 1 := by omega
  have g0 : row.getD (i + 2 - 2) Grey = c := by
    rw [e2, List.getD_eq_getElem?_getD, h0]
    rfl
  have g1 : row.getD (i + 2 - 1) Grey = c := by
    rw [e1, List.getD_eq_getElem?_getD, h1]
    rfl
  simp only [thriceBody]
  rw [if_neg (by omega), g0, g1, if_pos ⟨hc, rfl, rfl⟩, e2, e1]

/-- The thrice loop body stays silent at an index that closes no triple. -/
theorem thriceBody_silent (row : Row) (j : Nat) (c3 : Color)
    (hj : row[j]? = some c3) (h : ∀ i c, i + 2 = j → ¬ tripleAt row i c) :
    thriceBody row (j, c3) = none := by
  simp only [thriceBody]
  by_cases hj2 : j < 2
  · rw [if_pos hj2]
  · have hlen : j < row.length := (List.getElem?_eq_some_iff.mp hj).1
    have hij : (j - 2) + 2 = j := by omega
    have hcond : ¬ (row.getD (j - 2) Grey ≠ Grey ∧
        row.getD (j - 2) Grey = row.getD (j - 1) Grey ∧
        row.getD (j - 2) Grey = c3) := by
      rintro ⟨hne, h12, h13⟩
      refine h (j - 2) (row.getD (j - 2) Grey) hij ⟨hne, ?_, ?_, ?_⟩
      · exact getElem?_eq_some_getD row (j - 2) (by omega)
      · have e1 : j - 2 + 1 = j - 1 := by omega
        rw [e1, getElem?_eq_some_getD row (j - 1) (by omega), h12]
      · rw [hij, hj, ← h13]
    rw [if_neg hj2, if_neg hcond]

/-- A firing thrice loop body at an enumerated entry of the row exposes a
triple whose positions it reports. -/
theorem thriceBody_some_elim (row : Row) (k : Nat) (c3 : Color)
    (t : (Nat × Nat × Nat) × Color) (hk : row[k]? = some c3)
    (h : thriceBody row (k, c3) = some t) :
    ∃ i c, k = i + 2 ∧ t = ((i, i + 1, i + 2), c) ∧ tripleAt row i c := by
  simp only [thriceBody] at h
  split at h
  · cases h
  · split at h
    · rename_i hk2 hcond
      obtain ⟨hne, h12, h13⟩ := hcond
      cases h
      have hlen : k < row.length := (List.getElem?_eq_some_iff.mp hk).1
      have e1 : k - 2 + 1 = k - 1 := by omega
      have e2 : k - 2 + 2 = k := by omega
      refine ⟨k - 2, row.getD (k - 2) Grey, by omega, by rw [e1, e2], ?_⟩
      refine ⟨hne, ?_, ?_, ?_⟩
      · exact getElem?_eq_some_getD row (k - 2) (by omega)
      · rw [e1, getElem?_eq_some_getD row (k - 1) (by omega), h12]
      · rw [e2, hk, ← h13]
    · cases h

/-- The row checker returns none exactly on rows with no triple. -/
theorem findThriceRepetitionRow_eq_none_iff (row : Row) :
    findThriceRepetitionRow row = none ↔ ∀ i c, ¬ tripleAt row i c := by
  rw [findThriceRepetitionRow, findSome?_enum_eq_none_iff]
  constructor
  · intro h i c htrip
    have h2 := h (i + 2) c htrip.2.2.2
    rw [thriceBody_fires row i c htrip] at h2
    cases h2
  · intro h j c3 hj
    exact thriceBody_silent row j c3 hj (fun i c _ => h i c)

/-- A row checker hit is the leftmost triple of the row. -/
theorem findThriceRepetitionRow_some_elim (row : Row)
    (t : (Nat × Nat × Nat) × Color) (h : findThriceRepetitionRow row = some t) :
    ∃ i c, t = ((i, i + 1, i + 2), c) ∧ tripleAt row i c ∧
      ∀ j c2, j < i → ¬ tripleAt row j c2 := by
  rw [findThriceRepetitionRow, findSome?_enum_eq_some_iff] at h
  obtain ⟨k, c3, hk, hf, hmin⟩ := h
  obtain ⟨i, c, hk2, ht, htrip⟩ := thriceBody_some_elim row k c3 t hk hf
  refine ⟨i, c, ht, htrip, ?_⟩
  intro j c2 hj htrip2
  have := hmin (j + 2) c2 (by omega) htrip2.2.2.2
  rw [thriceBody_fires row j c2 htrip2] at this
  cases this

/-- A line scan returns none exactly when the per-line check returns none on
every line. -/
theorem scanLines_eq_none_iff {α : Type} (check : Row → Option α)
    (lines : List Row) :
    scanLines check lines = none ↔
      ∀ (j : Nat) (line : Row), lines[j]? = some line → check line = none := by
  rw [scanLines, findSome?_enum_eq_none_iff]
  constructor
  · intro h j line hj
    have h2 := h j line hj
    simp only [Option.map_eq_none'] at h2
    exact h2
  · intro h j line hj
    simp only [Option.map_eq_none']
    exact h j line hj

/-- A line scan hit is the first line on which the per-line check fires. -/
theorem scanLines_some_elim {α : Type} (check : Row → Option α)
    (lines : List Row) (r : Nat) (v : α)
    (h : scanLines check lines = some (r, v)) :
    ∃ line, lines[r]? = some line ∧ check line = some v ∧
      ∀ (j : Nat) (line2 : Row), j < r → lines[j]? = some line2 →
        check line2 = none := by
  rw [scanLines, findSome?_enum_eq_some_iff] at h
  obtain ⟨k, line, hk, hf, hmin⟩ := h
  simp only [Option.map_eq_some'] at hf
  obtain ⟨v2, hv2, hpair⟩ := hf
  obtain ⟨rfl, rfl⟩ := Prod.mk.injEq .. ▸ hpair
  refine ⟨line, hk, hv2, ?_⟩
  intro j line2 hj hlj
  have h2 := hmin j line2 hj hlj
  simp only [Option.map_eq_none'] at h2
  exact h2

/-- A triple needs at least three cells in the line. -/
theorem tripleAt_three_le_length (ln : Row) (i : Nat) (c : Color)
    (h : tripleAt ln i c) : 3 ≤ ln.length := by
  have := (List.getElem?_eq_some_iff.mp h.2.2.2).1
  omega

/-- C5: the Triple-Repetition checker fires exactly when some line (a row or a
column) holds three consecutive cells of one active color; a reported row hit
is the leftmost triple of the earliest offending row, a reported column hit
certifies that no row has any triple and is the leftmost triple of the earliest
offending column, and a board all of whose lines are shorter than three cells
never fires. Triples never involve Grey by the definition of tripleAt. -/
theorem findThriceRepetition_spec (board : Board) :
    ((findThriceRepetition board).isSome ↔
      ∃ ln, (ln ∈ rows board ∨ ln ∈ columns board) ∧ ∃ i c, tripleAt ln i c) ∧
    (∀ r t c, findThriceRepetition board = some (.thriceRow r t c) →
      ∃ row, (rows board)[r]? = some row ∧
        (∃ i, t = (i, i + 1, i + 2) ∧ tripleAt row i c ∧
          ∀ j c2, j < i → ¬ tripleAt row j c2) ∧
        ∀ (r2 : Nat) (row2 : Row), r2 < r → (rows board)[r2]? = some row2 →
          ∀ j c2, ¬ tripleAt row2 j c2) ∧
    (∀ k t c, findThriceRepetition board = some (.thriceColumn k t c) →
      (∀ row ∈ rows board, ∀ j c2, ¬ tripleAt row j c2) ∧
      ∃ col, (columns board)[k]? = some col ∧
        (∃ i, t = (i, i + 1, i + 2) ∧ tripleAt col i c ∧
          ∀ j c2, j < i → ¬ tripleAt col j c2) ∧
        ∀ (k2 : Nat) (col2 : Row), k2 < k → (columns board)[k2]? = some col2 →
          ∀ j c2, ¬ tripleAt col2 j c2) ∧
    ((∀ ln, (ln ∈ rows board ∨ ln ∈ columns board) → ln.length < 3) →
      findThriceRepetition board = none) := by
  refine ⟨⟨?_, ?_⟩, ?_, ?_, ?_⟩
  · intro hs
    cases hR : scanLines findThriceRepetitionRow (rows board) with
    | some p =>
      obtain ⟨r, v⟩ := p
      obtain ⟨row, hrow, hcheck, hmin⟩ := scanLines_some_elim _ _ r v hR
      obtain ⟨i, c, htv, htrip, hminrow⟩ :=
        findThriceRepetitionRow_some_elim row v hcheck
      exact ⟨row, Or.inl (List.mem_iff_getElem?.mpr ⟨r, hrow⟩), i, c, htrip⟩
    | none =>
      cases hC : scanLines findThriceRepetitionRow (columns board) with
      | some p =>
        obtain ⟨k, v⟩ := p
        obtain ⟨col, hcol, hcheck, hmin⟩ := scanLines_some_elim _ _ k v hC
        obtain ⟨i, c, htv, htrip, hmincol⟩ :=
          findThriceRepetitionRow_some_elim col v hcheck
        exact ⟨col, Or.inr (List.mem_iff_getElem?.mpr ⟨k, hcol⟩), i, c, htrip⟩
      | none =>
        rw [findThriceRepetition, hR, hC] at hs
        simp at hs
  · rintro ⟨ln, hmem, i, c, htrip⟩
    cases hR : scanLines findThriceRepetitionRow (rows board) with
    | some p =>
      obtain ⟨r, v⟩ := p
      rw [findThriceRepetition, hR]
      simp
    | none =>
      cases hC : scanLines findThriceRepetitionRow (columns board) with
      | some p =>
        obtain ⟨k, v⟩ := p
        rw [findThriceRepetition, hR, hC]
        simp
      | none =>
        exfalso
        obtain hmr | hmc := hmem
        · obtain ⟨j, hj⟩ := List.mem_iff_getElem?.mp hmr
          have hnone := (scanLines_eq_none_iff _ _).mp hR j ln hj
          exact (findThriceRepetitionRow_eq_none_iff ln).mp hnone i c htrip
        · obtain ⟨j, hj⟩ := List.mem_iff_getElem?.mp hmc
          have hnone := (scanLines_eq_none_iff _ _).mp hC j ln hj
          exact (findThriceRepetitionRow_eq_none_iff ln).mp hnone i c htrip
  · intro r t c h
    cases hR : scanLines findThriceRepetitionRow (rows board) with
    | none =>
      exfalso
      rw [findThriceRepetition, hR] at h
      cases hC : scanLines findThriceRepetitionRow (columns board) with
      | some p =>
        obtain ⟨k, v⟩ := p
        rw [hC] at h
        simp at h
      | none =>
        rw [hC] at h
        cases h
    | some p =>
      obtain ⟨r1, v⟩ := p
      rw [findThriceRepetition, hR] at h
      simp only [Option.some.injEq, Violation.thriceRow.injEq] at h
      obtain ⟨rfl, htv1, hcv⟩ := h
      obtain ⟨row, hrow, hcheck, hmin⟩ := scanLines_some_elim _ _ r1 v hR
      obtain ⟨i, c2, htv, htrip, hminrow⟩ :=
        findThriceRepetitionRow_some_elim row v hcheck
      subst htv
      obtain rfl : t = (i, i + 1, i + 2) := htv1.symm
      obtain rfl : c = c2 := hcv.symm
      refine ⟨row, hrow, ⟨i, rfl, htrip, hminrow⟩, ?_⟩
      intro r2 row2 h2 hrow2
      exact (findThriceRepetitionRow_eq_none_iff row2).mp (hmin r2 row2 h2 hrow2)
  · intro k t c h
    cases hR : scanLines findThriceRepetitionRow (rows board) with
    | some p =>
      exfalso
      obtain ⟨r1, v⟩ := p
      rw [findThriceRepetition, hR] at h
      simp at h
    | none =>
      have hrowsclean : ∀ row ∈ rows board, ∀ j c2, ¬ tripleAt row j c2 := by
        intro row hrow j c2
        obtain ⟨r2, hr2⟩ := List.mem_iff_getElem?.mp hrow
        have hnone := (scanLines_eq_none_iff _ _).mp hR r2 row hr2
        exact (findThriceRepetitionRow_eq_none_iff row).mp hnone j c2
      rw [findThriceRepetition, hR] at h
      cases hC : scanLines findThriceRepetitionRow (columns board) with
      | none =>
        rw [hC] at h
        cases h
      | some p =>
        obtain ⟨k1, v⟩ := p
        rw [hC] at h
        simp only [Option.some.injEq, Violation.thriceColumn.injEq] at h
        obtain ⟨rfl, htv1, hcv⟩ := h
        obtain ⟨col, hcol, hcheck, hmin⟩ := scanLines_some_elim _ _ k1 v hC
        obtain ⟨i, c2, htv, htrip, hmincol⟩ :=
          findThriceRepetitionRow_some_elim col v hcheck
        subst htv
        obtain rfl : t = (i, i + 1, i + 2) := htv1.symm
        obtain rfl : c = c2 := hcv.symm
        refine ⟨hrowsclean, col, hcol, ⟨i, rfl, htrip, hmincol⟩, ?_⟩
        intro k2 col2 h2 hcol2
        exact (findThriceRepetitionRow_eq_none_iff col2).mp (hmin k2 col2 h2 hcol2)
  · intro hshort
    have hnoneR : scanLines findThriceRepetitionRow (rows board) = none := by
      rw [scanLines_eq_none_iff]
      intro j ln hj
      rw [findThriceRepetitionRow_eq_none_iff]
      intro i c htrip
      have h3 := tripleAt_three_le_length ln i c htrip
      have h4 := hshort ln (Or.inl (List.mem_iff_getElem?.mpr ⟨j, hj⟩))
      omega
    have hnoneC : scanLines findThriceRepetitionRow (columns board) = none := by
      rw [scanLines_eq_none_iff]
      intro j ln hj
      rw [findThriceRepetitionRow_eq_none_iff]
      intro i c htrip
      have h3 := tripleAt_three_le_length ln i c htrip
      have h4 := hshort ln (Or.inr (List.mem_iff_getElem?.mpr ⟨j, hj⟩))
      omega
    rw [findThriceRepetition, hnoneR, hnoneC]

/-! C6: the row completion heuristic. -/

/-- C6: naiveAutocompleteRow replaces every Grey cell by Blue when Red holds at
least half the row, else by Red when Blue holds at least half, and otherwise
returns the row unchanged; a row without Grey cells is always returned equal to
the input, whichever branch is taken. -/
theorem naiveAutocompleteRow_spec (row : Row) :
    (2 * countColors row Red ≥ row.length →
      naiveAutocompleteRow row = row.map (fun c => if c = Grey then Blue else c)) ∧
    (¬ 2 * countColors row Red ≥ row.length → 2 * countColors row Blue ≥ row.length →
      naiveAutocompleteRow row = row.map (fun c => if c = Grey then Red else c)) ∧
    (¬ 2 * countColors row Red ≥ row.length → ¬ 2 * countColors row Blue ≥ row.length →
      naiveAutocompleteRow row = row) ∧
    (Grey ∉ row → naiveAutocompleteRow row = row) := by
  refine ⟨?_, ?_, ?_, ?_⟩
  · intro h
    rw [naiveAutocompleteRow, if_pos h]
  · intro h1 h2
    rw [naiveAutocompleteRow, if_neg h1, if_pos h2]
  · intro h1 h2
    rw [naiveAutocompleteRow, if_neg h1, if_neg h2]
  · intro hg
    have hmap : ∀ b : Color, row.map (fun c => if c = Grey then b else c) = row := by
      intro b
      have : ∀ c ∈ row, (if c = Grey then b else c) = id c := by
        intro c hc
        have hne : c ≠ Grey := fun hcg => hg (hcg ▸ hc)
        rw [if_neg hne, id_eq]
      rw [List.map_congr_left this, List.map_id]
    rw [naiveAutocompleteRow]
    split
    · exact hmap Blue
    · split
      · exact hmap Red
      · rfl

/-! C8 and C9: move application. -/

/-- The clone is a fresh value equal to its input, which is why playMove never
changes the board it is given. -/
theorem cloneBoard_eq (board : Board) : cloneBoard board = board :=
  List.map_id' board

/-- C8: on an in-bounds move, playMove returns a board that holds the move
color at the target cell and agrees with the input board at every other cell,
and the cloned input it writes into equals the input board. -/
theorem playMove_frame (board : Board) (m : Move)
    (hr : m.row < board.length)
    (hc : m.column < (board.getD m.row []).length) :
    (∀ r c, getCell (playMove board m).1 r c =
      if r = m.row ∧ c = m.column then some m.color else getCell board r c) ∧
    cloneBoard board = board := by
  refine ⟨?_, cloneBoard_eq board⟩
  intro r c
  rw [List.getD_eq_getElem?_getD] at hc
  simp only [playMove, cloneBoard_eq, getCell]
  by_cases hrr : r = m.row
  · subst hrr
    rw [List.getD_eq_getElem?_getD, List.getElem?_set_self hr]
    simp only [Option.getD_some]
    by_cases hcc : c = m.column
    · subst hcc
      simp [List.getElem?_set_self hc]
    · rw [if_neg (fun h => hcc h.2), List.getElem?_set_ne (fun h => hcc h.symm),
        List.getD_eq_getElem?_getD]
  · rw [if_neg (fun h => hrr h.1), List.getD_eq_getElem?_getD,
      List.getElem?_set_ne (fun h => hrr h.symm), ← List.getD_eq_getElem?_getD]

/-- C9: the playMove cell write aborts only when the row index is out of
bounds; with an in-bounds row and an out-of-bounds column the JS write extends
the row silently and a result grid is produced, so the claim that any
out-of-bounds coordinate fails fast does not hold for columns. The board
[[Grey]] with the move Red at row 0, column 5 is the failing input, while row
5, column 0 on the same board does throw. -/
theorem playMove_column_no_fault :
    playMoveThrows [[Grey]] ⟨Red, 0, 5⟩ = false ∧
    ([Grey] : Row).length ≤ 5 ∧
    playMoveThrows [[Grey]] ⟨Red, 5, 0⟩ = true := by
  exact ⟨rfl, by decide, rfl⟩

/-- C8 witness: the frame equality evaluated on the concrete board
[[Grey, Red], [Blue, Grey]] with the move Blue at row 1, column 1. -/
theorem playMove_frame_witness :
    getCell (playMove [[Grey, Red], [Blue, Grey]] ⟨Blue, 1, 1⟩).1 1 1 = some Blue ∧
    getCell (playMove [[Grey, Red], [Blue, Grey]] ⟨Blue, 1, 1⟩).1 0 1 = some Red ∧
    cloneBoard [[Grey, Red], [Blue, Grey]] = [[Grey, Red], [Blue, Grey]] := by
  have h := playMove_frame [[Grey, Red], [Blue, Grey]] ⟨Blue, 1, 1⟩
    (by decide) (by decide)
  exact ⟨(h.1 1 1).trans (by decide), (h.1 0 1).trans (by decide), h.2⟩

/-! C7: the bounded solve loop. -/

/-- The loop records at most one move per unit of fuel. -/
theorem trySolveGo_moves_length (fuel : Nat) :
    ∀ (b : Board) (ms : List ForcedMove) (nm : Option ForcedMove),
      (trySolveGo fuel b ms nm).moves.length ≤ ms.length + fuel := by
  induction fuel with
  | zero =>
    intro b ms nm
    cases nm <;> simp [trySolveGo]
  | succ n ih =>
    intro b ms nm
    cases nm with
    | none => simp [trySolveGo]
    | some fm =>
      simp only [trySolveGo]
      cases hp : (playMove b fm.move).2 with
      | some v =>
        simp only [hp]
        simp
      | none =>
        simp only [hp]
        refine le_trans (ih _ _ _) ?_
        simp
        omega

/-- The violation field of playMove is the validation of the board it
returns. -/
theorem playMove_snd (board : Board) (m : Move) :
    (playMove board m).2 = validateBoard (playMove board m).1 := rfl

/-- When the loop ends with an unexpected violation, that violation is the
validation result of the board it returns. -/
theorem trySolveGo_violation (fuel : Nat) :
    ∀ (b : Board) (ms : List ForcedMove) (nm : Option ForcedMove) (v : Violation),
      (trySolveGo fuel b ms nm).unexpectedViolation = some v →
      validateBoard (trySolveGo fuel b ms nm).board = some v := by
  induction fuel with
  | zero =>
    intro b ms nm v h
    cases nm <;> simp [trySolveGo] at h
  | succ n ih =>
    intro b ms nm v h
    cases nm with
    | none => simp [trySolveGo] at h
    | some fm =>
      simp only [trySolveGo] at h ⊢
      cases hp : (playMove b fm.move).2 with
      | some v2 =>
        simp only [hp] at h ⊢
        simp at h ⊢
        rw [← h]
        exact (playMove_snd b fm.move).symm.trans hp
      | none =>
        simp only [hp] at h ⊢
        exact ih _ _ _ v h

/-- C7: the solver loop runs at most board.length squared iterations, so at
most that many forced moves are recorded whatever the finder keeps returning;
it returns the unchanged input with no moves when the finder finds nothing at
once; and when it stops on an unexpected violation, that violation is exactly
the validation of the board it returns, the board right after the failed
application. -/
theorem trySolveByNegation_spec (board : Board) :
    (trySolveByNegation board).moves.length ≤ board.length ^ 2 ∧
    (findMoveByNegation board = none →
      trySolveByNegation board = ⟨board, [], none⟩) ∧
    (∀ (fuel : Nat) (b : Board) (ms : List ForcedMove),
      trySolveGo fuel b ms none = ⟨b, ms, none⟩) ∧
    (∀ v, (trySolveByNegation board).unexpectedViolation = some v →
      validateBoard (trySolveByNegation board).board = some v) := by
  refine ⟨?_, ?_, fun fuel b ms => by cases fuel <;> rfl, ?_⟩
  · have h := trySolveGo_moves_length (board.length ^ 2) (cloneBoard board) []
      (findMoveByNegation (cloneBoard board))
    rw [trySolveByNegation]
    simpa using h
  · intro h
    rw [trySolveByNegation, cloneBoard_eq, h]
    cases board.length ^ 2 with
    | zero => rfl
    | succ n => rfl
  · intro v h
    rw [trySolveByNegation] at h ⊢
    exact trySolveGo_violation _ _ _ _ v h

/-! C3: the negation-based move finder. -/

/-- findSome? distributes over flatMap. -/
theorem findSome?_flatMap {α β γ : Type} (l : List α) (g : α → List β)
    (f : β → Option γ) :
    (l.flatMap g).findSome? f = l.findSome? (fun a => (g a).findSome? f) := by
  induction l with
  | nil => rfl
  | cons a l ih =>
    rw [List.flatMap_cons, List.findSome?_append, ih, List.findSome?_cons]
    cases h : (g a).findSome? f <;> simp [h]

/-- A firing findSome? has a first firing element, with every earlier element
silent. -/
theorem findSome?_eq_some_min {α β : Type} (f : α → Option β) (l : List α)
    (b : β) (h : l.findSome? f = some b) :
    ∃ k a, l[k]? = some a ∧ f a = some b ∧
      ∀ (j : Nat) (aj : α), j < k → l[j]? = some aj → f aj = none := by
  induction l with
  | nil => cases h
  | cons x l ih =>
    rw [List.findSome?_cons] at h
    cases hx : f x with
    | some b1 =>
      rw [hx] at h
      cases h
      exact ⟨0, x, by simp, hx, by omega⟩
    | none =>
      rw [hx] at h
      obtain ⟨k, a, hk, hf, hmin⟩ := ih h
      refine ⟨k + 1, a, by simpa using hk, hf, ?_⟩
      intro j aj hj haj
      cases j with
      | zero =>
        rw [List.getElem?_cons_zero] at haj
        cases haj
        exact hx
      | succ j1 =>
        exact hmin j1 aj (by omega) (by simpa using haj)

/-- C3: findMoveByNegation is the first hit of the cell decision over the
row-major cell enumeration: it returns none exactly when no cell decides, a
returned forced move is the decision of the first deciding cell with all
earlier cells undecided, and the cell decision skips non-Grey cells, forces
Blue with the Red-probe violation when completing Red violates, probes Blue
only when Red completes cleanly, forcing Red with the Blue-probe violation,
and leaves the cell undecided when both probes are clean. The enumeration
lists exactly the cells of the board with their contents. -/
theorem findMoveByNegation_spec (board : Board) :
    findMoveByNegation board
        = (cellsRowMajor board).findSome? (cellDecision board) ∧
    (∀ p, p ∈ cellsRowMajor board ↔ getCell board p.1 p.2.1 = some p.2.2) ∧
    (findMoveByNegation board = none ↔
      ∀ p ∈ cellsRowMajor board, cellDecision board p = none) ∧
    (∀ fm, findMoveByNegation board = some fm →
      ∃ k p, (cellsRowMajor board)[k]? = some p ∧
        cellDecision board p = some fm ∧
        ∀ (j : Nat) (q : Nat × Nat × Color), j < k →
          (cellsRowMajor board)[j]? = some q → cellDecision board q = none) ∧
    (∀ r c color, color ≠ Grey → cellDecision board (r, c, color) = none) ∧
    (∀ r c v, probeViolation board Red r c = some v →
      cellDecision board (r, c, Grey) = some ⟨⟨Blue, r, c⟩, v⟩) ∧
    (∀ r c v, probeViolation board Red r c = none →
      probeViolation board Blue r c = some v →
      cellDecision board (r, c, Grey) = some ⟨⟨Red, r, c⟩, v⟩) ∧
    (∀ r c, probeViolation board Red r c = none →
      probeViolation board Blue r c = none →
      cellDecision board (r, c, Grey) = none) := by
  have heq : findMoveByNegation board
      = (cellsRowMajor board).findSome? (cellDecision board) := by
    rw [findMoveByNegation, cellsRowMajor, findSome?_flatMap]
    simp only [List.findSome?_map]
    rfl
  refine ⟨heq, ?_, ?_, ?_, ?_, ?_, ?_, ?_⟩
  · intro p
    rw [cellsRowMajor]
    simp only [rows]
    rw [List.mem_flatMap]
    constructor
    · rintro ⟨rp, hrp, hp⟩
      rw [List.mem_map] at hp
      obtain ⟨cp, hcp, rfl⟩ := hp
      have h1 := List.mem_enum_iff_getElem?.mp hrp
      have h2 := List.mem_enum_iff_getElem?.mp hcp
      rw [getCell, List.getD_eq_getElem?_getD, h1]
      simpa using h2
    · intro h
      rw [getCell, List.getD_eq_getElem?_getD] at h
      cases hb : board[p.1]? with
      | none =>
        rw [hb] at h
        simp at h
      | some row =>
        rw [hb] at h
        simp only [Option.getD_some] at h
        refine ⟨(p.1, row), List.mem_enum_iff_getElem?.mpr (by simpa using hb), ?_⟩
        rw [List.mem_map]
        refine ⟨(p.2.1, p.2.2), List.mem_enum_iff_getElem?.mpr (by simpa using h), ?_⟩
        rfl
  · rw [heq, List.findSome?_eq_none_iff]
  · intro fm h
    rw [heq] at h
    exact findSome?_eq_some_min _ _ fm h
  · intro r c color hcolor
    simp [cellDecision, hcolor]
  · intro r c v h
    simp [cellDecision, h]
  · intro r c v h1 h2
    simp [cellDecision, h1, h2]
  · intro r c h1 h2
    simp [cellDecision, h1, h2]

/-! C10: the completion heuristic never overwrites a placed color. -/

/-- One cell value refines another when it is unchanged or fills an empty cell
with another value. -/
def refines (a b : Color) : Prop := b = a ∨ (a = Grey ∧ b ≠ Grey)

/-- Refinement is reflexive. -/
theorem refines_refl (a : Color) : refines a a := Or.inl rfl

/-- Refinement composes. -/
theorem refines_trans (a b c : Color) (h1 : refines a b) (h2 : refines b c) :
    refines a c := by
  rcases h1 with h1 | ⟨ha, hb⟩
  · subst h1
    exact h2
  · rcases h2 with h2 | ⟨hb2, hc⟩
    · subst h2
      exact Or.inr ⟨ha, hb⟩
    · exact absurd hb2 hb

/-- Refinement unpacked as the two frame conditions of the claim. -/
theorem refines_elim (a b : Color) (h : refines a b) :
    (a ≠ Grey → b = a) ∧ (b ≠ a → a = Grey ∧ b ≠ Grey) := by
  rcases h with h | ⟨ha, hb⟩
  · exact ⟨fun _ => h, fun hba => absurd h hba⟩
  · subst ha
    exact ⟨fun hag => absurd rfl hag, fun _ => ⟨rfl, hb⟩⟩

/-- Row completion keeps the row length. -/
theorem naiveAutocompleteRow_length (row : Row) :
    (naiveAutocompleteRow row).length = row.length := by
  rw [naiveAutocompleteRow]
  split
  · simp
  · split
    · simp
    · rfl

/-- Row completion refines every cell: a placed color stays, only Grey can
change and then only to a non-Grey value. -/
theorem naiveAutocompleteRow_refines (row : Row) (i : Nat) (a b : Color)
    (ha : row[i]? = some a) (hb : (naiveAutocompleteRow row)[i]? = some b) :
    refines a b := by
  rw [naiveAutocompleteRow] at hb
  split at hb
  · rw [List.getElem?_map, ha] at hb
    simp only [Option.map_some'] at hb
    rw [Option.some.injEq] at hb
    subst hb
    by_cases hag : a = Grey
    · rw [if_pos hag]
      exact Or.inr ⟨hag, by decide⟩
    · rw [if_neg hag]
      exact refines_refl a
  · split at hb
    · rw [List.getElem?_map, ha] at hb
      simp only [Option.map_some'] at hb
      rw [Option.some.injEq] at hb
      subst hb
      by_cases hag : a = Grey
      · rw [if_pos hag]
        exact Or.inr ⟨hag, by decide⟩
      · rw [if_neg hag]
        exact refines_refl a
    · rw [ha] at hb
      rw [Option.some.injEq] at hb
      subst hb
      exact refines_refl a

/-- The column list has one column per row slot. -/
theorem columns_length (board : Board) : (columns board).length = board.length := by
  rw [columns]
  simp

/-- The c-th column, read in bounds, is the c-th entry of every row. -/
theorem columns_getElem? (board : Board) (c : Nat) (hc : c < board.length) :
    (columns board)[c]? = some (board.map (fun row => row.getD c Grey)) := by
  rw [columns, List.getElem?_map, List.getElem?_range hc]
  rfl

/-- The board shape of a column write. -/
theorem writeColumn_getElem? (board : Board) (ci : Nat) (col : Column) (r : Nat) :
    (writeColumn board ci col)[r]? =
      (board[r]?).map (fun row => row.set ci (col.getD r Grey)) := by
  rw [writeColumn, List.getElem?_mapIdx]

/-- A column write keeps the board length. -/
theorem writeColumn_length (board : Board) (ci : Nat) (col : Column) :
    (writeColumn board ci col).length = board.length := by
  rw [writeColumn, List.length_mapIdx]

/-- A column write keeps every row length. -/
theorem writeColumn_row_length (board : Board) (ci : Nat) (col : Column) (r : Nat) :
    ((writeColumn board ci col).getD r []).length = (board.getD r []).length := by
  rw [List.getD_eq_getElem?_getD, List.getD_eq_getElem?_getD, writeColumn_getElem?]
  cases board[r]? with
  | none => rfl
  | some row => simp

/-- A column write leaves every other column unchanged. -/
theorem writeColumn_getCell_ne (board : Board) (ci : Nat) (col : Column)
    (r c : Nat) (h : c ≠ ci) :
    getCell (writeColumn board ci col) r c = getCell board r c := by
  rw [getCell, getCell, List.getD_eq_getElem?_getD, List.getD_eq_getElem?_getD,
    writeColumn_getElem?]
  cases board[r]? with
  | none => rfl
  | some row =>
    simp only [Option.map_some', Option.getD_some]
    exact List.getElem?_set_ne (fun hh => h hh.symm)

/-- A column write puts the column value into every row long enough at its
index. -/
theorem writeColumn_getCell_self (board : Board) (ci : Nat) (col : Column)
    (r : Nat) (hci : ci < (board.getD r []).length) :
    getCell (writeColumn board ci col) r ci = some (col.getD r Grey) := by
  rw [List.getD_eq_getElem?_getD] at hci
  rw [getCell, List.getD_eq_getElem?_getD, writeColumn_getElem?]
  cases hr : board[r]? with
  | none =>
    rw [hr] at hci
    simp at hci
  | some row =>
    rw [hr] at hci
    simp only [Option.map_some', Option.getD_some]
    exact List.getElem?_set_self (by simpa using hci)

/-- A column write past the end of a row does nothing there. -/
theorem writeColumn_getCell_oob (board : Board) (ci : Nat) (col : Column)
    (r : Nat) (hci : (board.getD r []).length ≤ ci) :
    getCell (writeColumn board ci col) r ci = getCell board r ci := by
  rw [List.getD_eq_getElem?_getD] at hci
  rw [getCell, getCell, List.getD_eq_getElem?_getD, List.getD_eq_getElem?_getD,
    writeColumn_getElem?]
  cases hr : board[r]? with
  | none => rfl
  | some row =>
    rw [hr] at hci
    simp only [Option.map_some', Option.getD_some]
    rw [List.set_eq_of_length_le (by simpa using hci)]

/-- The column pass keeps the board length. -/
theorem foldl_writeColumn_length (cols : List Column) :
    ∀ (n : Nat) (b0 : Board),
      ((cols.enumFrom n).foldl
        (fun b p => writeColumn b p.1 (naiveAutocompleteRow p.2)) b0).length
        = b0.length := by
  induction cols with
  | nil => intro n b0; rfl
  | cons col cols ih =>
    intro n b0
    rw [List.enumFrom_cons, List.foldl_cons, ih (n + 1), writeColumn_length]

/-- The column pass keeps every row length. -/
theorem foldl_writeColumn_row_length (cols : List Column) :
    ∀ (n : Nat) (b0 : Board) (r : Nat),
      List.length (((cols.enumFrom n).foldl
        (fun b p => writeColumn b p.1 (naiveAutocompleteRow p.2)) b0).getD r [])
        = List.length (b0.getD r []) := by
  induction cols with
  | nil => intro n b0 r; rfl
  | cons col cols ih =>
    intro n b0 r
    rw [List.enumFrom_cons, List.foldl_cons, ih (n + 1), writeColumn_row_length]

/-- One cell of the board after the column pass: a cell whose column is among
the processed ones and which exists on the board holds the completed column
value for its row, and every other cell is unchanged. -/
theorem foldl_writeColumn_getCell (cols : List Column) :
    ∀ (n : Nat) (b0 : Board) (r c : Nat),
      getCell ((cols.enumFrom n).foldl
        (fun b p => writeColumn b p.1 (naiveAutocompleteRow p.2)) b0) r c =
      if n ≤ c ∧ c < n + cols.length ∧ c < (b0.getD r []).length then
        some ((naiveAutocompleteRow (cols.getD (c - n) [])).getD r Grey)
      else getCell b0 r c := by
  induction cols with
  | nil =>
    intro n b0 r c
    simp only [List.length_nil]
    rw [if_neg (by omega)]
    rfl
  | cons col cols ih =>
    intro n b0 r c
    rw [List.enumFrom_cons, List.foldl_cons, ih (n + 1), writeColumn_row_length]
    simp only [List.length_cons]
    rcases Nat.lt_trichotomy c n with hcn | rfl | hcn
    · rw [if_neg (by omega), if_neg (by omega)]
      exact writeColumn_getCell_ne b0 n (naiveAutocompleteRow col) r c (by omega)
    · rw [if_neg (by omega)]
      by_cases h2 : c < (b0.getD r []).length
      · rw [if_pos ⟨by omega, by omega, h2⟩]
        have e0 : c - c = 0 := by omega
        rw [e0, List.getD_cons_zero]
        exact writeColumn_getCell_self b0 c (naiveAutocompleteRow col) r h2
      · rw [if_neg (by omega)]
        exact writeColumn_getCell_oob b0 c (naiveAutocompleteRow col) r (by omega)
    · have e : c - n = (c - (n + 1)) + 1 := by omega
      by_cases h2 : c < n + 1 + cols.length ∧ c < (b0.getD r []).length
      · rw [if_pos ⟨by omega, h2⟩, if_pos ⟨by omega, by omega, h2.2⟩]
        rw [e, List.getD_cons_succ]
      · rw [if_neg (by omega), if_neg (by omega)]
        exact writeColumn_getCell_ne b0 n (naiveAutocompleteRow col) r c (by omega)

/-- The row pass keeps every row length. -/
theorem rowPass_row_length (board : Board) (r : Nat) :
    ((board.map naiveAutocompleteRow).getD r []).length
      = (board.getD r []).length := by
  rw [List.getD_eq_getElem?_getD, List.getD_eq_getElem?_getD, List.getElem?_map]
  cases board[r]? with
  | none => rfl
  | some row => simp [naiveAutocompleteRow_length]

/-- C10: completion never rewrites a placed color. Both for one row completion
and for whole-board completion, the output has the same shape as the input,
every non-Grey input cell keeps its color, and a cell that changed at all was
Grey in the input and is non-Grey in the output. -/
theorem naiveAutocomplete_frame (board : Board) :
    (∀ (row : Row) (i : Nat) (a b : Color), row[i]? = some a →
      (naiveAutocompleteRow row)[i]? = some b →
      (a ≠ Grey → b = a) ∧ (b ≠ a → a = Grey ∧ b ≠ Grey)) ∧
    (naiveAutocompleteBoard board).length = board.length ∧
    (∀ r : Nat, ((naiveAutocompleteBoard board).getD r []).length
      = (board.getD r []).length) ∧
    (∀ (r c : Nat) (a b : Color), getCell board r c = some a →
      getCell (naiveAutocompleteBoard board) r c = some b →
      (a ≠ Grey → b = a) ∧ (b ≠ a → a = Grey ∧ b ≠ Grey)) := by
  refine ⟨?_, ?_, ?_, ?_⟩
  · intro row i a b ha hb
    exact refines_elim a b (naiveAutocompleteRow_refines row i a b ha hb)
  · rw [naiveAutocompleteBoard]
    simp only [List.enum]
    rw [foldl_writeColumn_length, List.length_map]
  · intro r
    rw [naiveAutocompleteBoard]
    simp only [List.enum]
    rw [foldl_writeColumn_row_length, rowPass_row_length]
  · intro r c a b ha hb
    rw [getCell, List.getD_eq_getElem?_getD] at ha
    cases hrow : board[r]? with
    | none =>
      rw [hrow] at ha
      simp at ha
    | some row =>
      rw [hrow] at ha
      simp only [Option.getD_some] at ha
      have hr : r < board.length := (List.getElem?_eq_some_iff.mp hrow).1
      have hc : c < row.length := (List.getElem?_eq_some_iff.mp ha).1
      have hrow1 : (board.map naiveAutocompleteRow)[r]?
          = some (naiveAutocompleteRow row) := by
        rw [List.getElem?_map, hrow]
        rfl
      have hlen1 : c < (naiveAutocompleteRow row).length := by
        rw [naiveAutocompleteRow_length]
        exact hc
      obtain ⟨a1, ha1⟩ : ∃ a1, (naiveAutocompleteRow row)[c]? = some a1 :=
        ⟨_, List.getElem?_eq_getElem hlen1⟩
      have href1 : refines a a1 := naiveAutocompleteRow_refines row c a a1 ha ha1
      rw [naiveAutocompleteBoard] at hb
      simp only [List.enum] at hb
      rw [foldl_writeColumn_getCell] at hb
      by_cases hcb : c < board.length
      · have hcond : 0 ≤ c ∧
            c < 0 + (columns (board.map naiveAutocompleteRow)).length ∧
            c < ((board.map naiveAutocompleteRow).getD r []).length := by
          refine ⟨Nat.zero_le c, ?_, ?_⟩
          · rw [columns_length, List.length_map]
            omega
          · rw [List.getD_eq_getElem?_getD, hrow1]
            simpa [naiveAutocompleteRow_length] using hc
        rw [if_pos hcond, Nat.sub_zero] at hb
        have hcolC : (columns (board.map naiveAutocompleteRow)).getD c []
            = (board.map naiveAutocompleteRow).map (fun rw2 => rw2.getD c Grey) := by
          rw [List.getD_eq_getElem?_getD,
            columns_getElem? _ c (by rw [List.length_map]; exact hcb)]
          rfl
        have hColr : ((columns (board.map naiveAutocompleteRow)).getD c [])[r]?
            = some a1 := by
          rw [hcolC, List.getElem?_map, hrow1]
          simp only [Option.map_some']
          rw [Option.some.injEq, List.getD_eq_getElem?_getD, ha1]
          rfl
        have hrlen : r <
            ((columns (board.map naiveAutocompleteRow)).getD c []).length := by
          rw [hcolC, List.length_map, List.length_map]
          exact hr
        have hblen : r < (naiveAutocompleteRow
            ((columns (board.map naiveAutocompleteRow)).getD c [])).length := by
          rw [naiveAutocompleteRow_length]
          exact hrlen
        obtain ⟨b2, hb2⟩ : ∃ b2, (naiveAutocompleteRow
            ((columns (board.map naiveAutocompleteRow)).getD c []))[r]?
              = some b2 := ⟨_, List.getElem?_eq_getElem hblen⟩
        have hrefb : refines a1 b2 :=
          naiveAutocompleteRow_refines _ r a1 b2 hColr hb2
        have hbv : b = b2 := by
          rw [Option.some.injEq] at hb
          rw [← hb, List.getD_eq_getElem?_getD, hb2]
          rfl
        have htr := refines_trans a a1 b2 href1 hrefb
        rw [← hbv] at htr
        exact refines_elim a b htr
      · have hcond : ¬ (0 ≤ c ∧
            c < 0 + (columns (board.map naiveAutocompleteRow)).length ∧
            c < ((board.map naiveAutocompleteRow).getD r []).length) := by
          rw [columns_length, List.length_map]
          omega
        rw [if_neg hcond] at hb
        rw [getCell, List.getD_eq_getElem?_getD, hrow1] at hb
        simp only [Option.getD_some] at hb
        rw [ha1, Option.some.injEq] at hb
        subst hb
        exact refines_elim a a1 href1

end App
